import Mathlib

/-!
Verification development for the pg_weighted_statistics extension
(src/src/weighted_mean.c, weighted_variance.c, weighted_quantiles.c, utils.c).

Modelling conventions:
- IEEE-754 doubles are modelled as exact rationals; the one transcendental
  routine (the regularized incomplete Beta function) is modelled over the
  reals.  A NaN result of a double computation is modelled as Option.none.
- A PostgreSQL function result is modelled by PGResult: ok v for
  PG_RETURN_FLOAT8 / a returned array, null for PG_RETURN_NULL, and error
  for an ereport(ERROR , ...) call, which aborts the whole call.
- Arrays are lists; the C loops become folds over those lists.
- The radix sort of utils.c operates on the IEEE-754 bit pattern of each
  value, so the sorting module is embedded over 64-bit patterns (natural
  numbers below 2 ^ 64) together with the exact decoding function toVal.
-/

/-- Result of one PostgreSQL extension call: a value, SQL NULL, or an
ereport error that aborts the call (InvalidInput). -/
inductive PGResult (α : Type) : Type
  | ok : α → PGResult α
  | null : PGResult α
  | error : PGResult α
  deriving DecidableEq

/-- Map a function over the ok value of a PGResult. -/
def pgMap {α β : Type} (f : α → β) : PGResult α → PGResult β
  | .ok v => .ok (f v)
  | .null => .null
  | .error => .error

/-- Clamping of the accumulated weight sum: the C code sets
sum_weights = 1.0 whenever the accumulated sum is below 1.0 (sparse
completion by an implicit zero-valued observation). -/
def clampTotal (s : ℚ) : ℚ := if s < 1 then 1 else s

/-- Loop accumulating vals[i] * weights[i] over the pairs with
weights[i] > 0.0 (weighted_mean.c lines 61-80, weighted_variance.c
lines 103-107). -/
def sumPosWeighted (vals weights : List ℚ) : ℚ :=
  (vals.zip weights).foldl (fun acc p => if 0 < p.2 then acc + p.1 * p.2 else acc) 0

/-- Loop accumulating weights[i] over the entries with weights[i] > 0.0. -/
def sumPosWeights (weights : List ℚ) : ℚ :=
  weights.foldl (fun acc w => if 0 < w then acc + w else acc) 0

/-- Loop accumulating weights[i] * (vals[i] - mean)^2 over the pairs with
weights[i] > 0.0 (weighted_variance.c lines 114-119). -/
def sumPosSqDev (vals weights : List ℚ) (mean : ℚ) : ℚ :=
  (vals.zip weights).foldl
    (fun acc p => if 0 < p.2 then acc + p.2 * ((p.1 - mean) * (p.1 - mean)) else acc) 0

/-- Loop accumulating weights[i] * weights[i] over the entries with
weights[i] > 0.0 (weighted_variance.c lines 137-141). -/
def sumPosWeightsSq (weights : List ℚ) : ℚ :=
  weights.foldl (fun acc w => if 0 < w then acc + w * w else acc) 0

/-- The mean computed by weighted_variance_sparse_c line 108:
sum_weighted / sum_weights with sum_weights clamped to at least 1. -/
def varMean (vals weights : List ℚ) : ℚ :=
  sumPosWeighted vals weights / clampTotal (sumPosWeights weights)

/-- sum_weighted_sq_dev after the implicit-zero contribution
(weighted_variance.c lines 111-126): the explicit sum plus
(1 - original_sum_weights) * (0 - mean)^2 when original_sum_weights < 1. -/
def varSqDevTotal (vals weights : List ℚ) : ℚ :=
  if sumPosWeights weights < 1 then
    sumPosSqDev vals weights (varMean vals weights) +
      (1 - sumPosWeights weights) *
        ((0 - varMean vals weights) * (0 - varMean vals weights))
  else
    sumPosSqDev vals weights (varMean vals weights)

/-- sum_weights_sq after the implicit-zero contribution
(weighted_variance.c lines 135-147). -/
def varSumWeightsSq (weights : List ℚ) : ℚ :=
  if sumPosWeights weights < 1 then
    sumPosWeightsSq weights + (1 - sumPosWeights weights) * (1 - sumPosWeights weights)
  else
    sumPosWeightsSq weights

/-- Kish effective sample size computed by weighted_variance_sparse_c
line 149: sum_weights * sum_weights / sum_weights_sq. -/
def varNeff (weights : List ℚ) : ℚ :=
  clampTotal (sumPosWeights weights) * clampTotal (sumPosWeights weights) /
    varSumWeightsSq weights

/-- Embedding of weighted_mean_sparse_c (weighted_mean.c lines 29-99).
The NaN/Inf check of line 69 can never fire over exact rationals and is
omitted; the negative-weight check of line 62 aborts the call with an
ereport error.  Mismatched array lengths abort inside
extract_double_arrays (utils.c lines 209-214). -/
def weighted_mean_sparse_c (vals weights : List ℚ) : PGResult ℚ :=
  if vals.length ≠ weights.length then .error
  else if vals.length = 0 then .null
  else if weights.any (fun w => decide (w < 0)) then .error
  else if clampTotal (sumPosWeights weights) = 0 then .null
  else .ok (sumPosWeighted vals weights / clampTotal (sumPosWeights weights))

/-- Embedding of weighted_variance_sparse_c (weighted_variance.c lines
27-166).  ddof is a non-negative int (the negative case is rejected at
the boundary).  Returns null exactly where the C code does
PG_RETURN_NULL (n_eff ≤ ddof). -/
def weighted_variance_sparse_c (vals weights : List ℚ) (ddof : ℕ) : PGResult ℚ :=
  if vals.length ≠ weights.length then .error
  else if vals.length = 0 then .ok 0
  else if weights.any (fun w => decide (w < 0)) then .error
  else if clampTotal (sumPosWeights weights) = 0 then .ok 0
  else if ddof = 0 then
    .ok (varSqDevTotal vals weights / clampTotal (sumPosWeights weights))
  else if varNeff weights ≤ (ddof : ℚ) then .null
  else
    .ok (varSqDevTotal vals weights / clampTotal (sumPosWeights weights) *
          varNeff weights / (varNeff weights - (ddof : ℚ)))

/-- Embedding of weighted_std_sparse_c (weighted_variance.c lines
177-317).  The C function duplicates the whole variance computation and
applies sqrt only at the final return (line 316); the early returns of
0.0 (lines 222, 249) are not passed through sqrt, which the branches
below mirror exactly. -/
noncomputable def weighted_std_sparse_c (vals weights : List ℚ) (ddof : ℕ) : PGResult ℝ :=
  if vals.length ≠ weights.length then .error
  else if vals.length = 0 then .ok 0
  else if weights.any (fun w => decide (w < 0)) then .error
  else if clampTotal (sumPosWeights weights) = 0 then .ok 0
  else if ddof = 0 then
    .ok (Real.sqrt ((varSqDevTotal vals weights / clampTotal (sumPosWeights weights) : ℚ) : ℝ))
  else if varNeff weights ≤ (ddof : ℚ) then .null
  else
    .ok (Real.sqrt ((varSqDevTotal vals weights / clampTotal (sumPosWeights weights) *
          varNeff weights / (varNeff weights - (ddof : ℚ)) : ℚ) : ℝ))

/-- Total weight after sparse completion, as the spec words it: explicit
weights summing to w below 1.0 are completed to total weight 1.0 by an
implicit zero-valued observation of weight 1.0 - w. -/
def specTotalWeight (weights : List ℚ) : ℚ :=
  if weights.sum < 1 then 1 else weights.sum

/-- The numerator of the spec's weighted mean: the sum of
weight_i * value_i over all pairs. -/
def specWeightedSum (vals weights : List ℚ) : ℚ :=
  (List.zipWith (fun w v => w * v) weights vals).sum

/-- The spec's weighted mean: sum of weight_i * value_i divided by the
completed total weight. -/
def specMean (vals weights : List ℚ) : ℚ :=
  specWeightedSum vals weights / specTotalWeight weights

/-- The spec's accumulated squared deviation: weight_i * (value_i - mean)^2
over explicit pairs plus the implicit-zero contribution
(1 - sum of weights) * mean^2 when the explicit weights sum below 1. -/
def specSqDev (vals weights : List ℚ) : ℚ :=
  (List.zipWith (fun w v => w * (v - specMean vals weights) ^ 2) weights vals).sum +
    (if weights.sum < 1 then (1 - weights.sum) * specMean vals weights ^ 2 else 0)

/-- The spec's sum of squared weights including the implicit-zero
contribution. -/
def specSumSq (weights : List ℚ) : ℚ :=
  (weights.map (fun w => w ^ 2)).sum +
    (if weights.sum < 1 then (1 - weights.sum) ^ 2 else 0)

/-- The spec's Kish effective sample size:
total_weight^2 / sum of squared weights. -/
def specNeff (weights : List ℚ) : ℚ :=
  specTotalWeight weights ^ 2 / specSumSq weights

/-- The spec's bias-corrected sample variance:
(sum_sq_dev / total_weight) * n_eff / (n_eff - ddof). -/
def specSampleVar (vals weights : List ℚ) (ddof : ℕ) : ℚ :=
  specSqDev vals weights / specTotalWeight weights * specNeff weights /
    (specNeff weights - (ddof : ℚ))

section FoldLemmas

theorem sumPosWeights_aux (weights : List ℚ) (hw : ∀ w ∈ weights, 0 ≤ w) :
    ∀ init : ℚ,
      weights.foldl (fun acc w => if 0 < w then acc + w else acc) init =
        init + weights.sum := by
  induction weights with
  | nil => intro init; simp
  | cons w wt ih =>
    intro init
    have hwt : ∀ x ∈ wt, 0 ≤ x := fun x hx => hw x (List.mem_cons_of_mem _ hx)
    simp only [List.foldl_cons, List.sum_cons, ih hwt]
    rcases lt_or_eq_of_le (hw w (List.mem_cons_self _ _)) with h | h
    · rw [if_pos h]; ring
    · rw [if_neg (by rw [← h]; exact lt_irrefl 0), ← h]; ring

theorem sumPosWeights_eq (weights : List ℚ) (hw : ∀ w ∈ weights, 0 ≤ w) :
    sumPosWeights weights = weights.sum := by
  unfold sumPosWeights
  rw [sumPosWeights_aux weights hw 0, zero_add]

theorem sumPosWeighted_aux (vals : List ℚ) :
    ∀ (weights : List ℚ), (∀ w ∈ weights, 0 ≤ w) → ∀ init : ℚ,
      (vals.zip weights).foldl
          (fun acc p => if 0 < p.2 then acc + p.1 * p.2 else acc) init =
        init + (List.zipWith (fun w v => w * v) weights vals).sum := by
  induction vals with
  | nil => intro weights _ init; cases weights <;> simp
  | cons v vt ih =>
    intro weights hw init
    cases weights with
    | nil => simp
    | cons w wt =>
      have hwt : ∀ x ∈ wt, 0 ≤ x := fun x hx => hw x (List.mem_cons_of_mem _ hx)
      simp only [List.zip_cons_cons, List.foldl_cons, List.zipWith_cons_cons,
        List.sum_cons, ih wt hwt]
      rcases lt_or_eq_of_le (hw w (List.mem_cons_self _ _)) with h | h
      · rw [if_pos h]; ring
      · rw [if_neg (by rw [← h]; exact lt_irrefl 0), ← h]; ring

theorem sumPosWeighted_eq (vals weights : List ℚ) (hw : ∀ w ∈ weights, 0 ≤ w) :
    sumPosWeighted vals weights = specWeightedSum vals weights := by
  unfold sumPosWeighted specWeightedSum
  rw [sumPosWeighted_aux vals weights hw 0, zero_add]

theorem sumPosSqDev_aux (m : ℚ) (vals : List ℚ) :
    ∀ (weights : List ℚ), (∀ w ∈ weights, 0 ≤ w) → ∀ init : ℚ,
      (vals.zip weights).foldl
          (fun acc p => if 0 < p.2 then acc + p.2 * ((p.1 - m) * (p.1 - m)) else acc) init =
        init + (List.zipWith (fun w v => w * (v - m) ^ 2) weights vals).sum := by
  induction vals with
  | nil => intro weights _ init; cases weights <;> simp
  | cons v vt ih =>
    intro weights hw init
    cases weights with
    | nil => simp
    | cons w wt =>
      have hwt : ∀ x ∈ wt, 0 ≤ x := fun x hx => hw x (List.mem_cons_of_mem _ hx)
      simp only [List.zip_cons_cons, List.foldl_cons, List.zipWith_cons_cons,
        List.sum_cons, ih wt hwt]
      rcases lt_or_eq_of_le (hw w (List.mem_cons_self _ _)) with h | h
      · rw [if_pos h]; ring
      · rw [if_neg (by rw [← h]; exact lt_irrefl 0), ← h]; ring

theorem sumPosSqDev_eq (vals weights : List ℚ) (m : ℚ) (hw : ∀ w ∈ weights, 0 ≤ w) :
    sumPosSqDev vals weights m =
      (List.zipWith (fun w v => w * (v - m) ^ 2) weights vals).sum := by
  unfold sumPosSqDev
  rw [sumPosSqDev_aux m vals weights hw 0, zero_add]

theorem sumPosWeightsSq_aux (weights : List ℚ) (hw : ∀ w ∈ weights, 0 ≤ w) :
    ∀ init : ℚ,
      weights.foldl (fun acc w => if 0 < w then acc + w * w else acc) init =
        init + (weights.map (fun w => w ^ 2)).sum := by
  induction weights with
  | nil => intro init; simp
  | cons w wt ih =>
    intro init
    have hwt : ∀ x ∈ wt, 0 ≤ x := fun x hx => hw x (List.mem_cons_of_mem _ hx)
    simp only [List.foldl_cons, List.map_cons, List.sum_cons, ih hwt]
    rcases lt_or_eq_of_le (hw w (List.mem_cons_self _ _)) with h | h
    · rw [if_pos h]; ring
    · rw [if_neg (by rw [← h]; exact lt_irrefl 0), ← h]; ring

theorem sumPosWeightsSq_eq (weights : List ℚ) (hw : ∀ w ∈ weights, 0 ≤ w) :
    sumPosWeightsSq weights = (weights.map (fun w => w ^ 2)).sum := by
  unfold sumPosWeightsSq
  rw [sumPosWeightsSq_aux weights hw 0, zero_add]

theorem clampTotal_eq (weights : List ℚ) (hw : ∀ w ∈ weights, 0 ≤ w) :
    clampTotal (sumPosWeights weights) = specTotalWeight weights := by
  unfold clampTotal specTotalWeight
  rw [sumPosWeights_eq weights hw]

theorem clampTotal_ne_zero (s : ℚ) : clampTotal s ≠ 0 := by
  unfold clampTotal
  split_ifs with h
  · exact one_ne_zero
  · intro h0
    rw [h0] at h
    exact h one_pos

theorem varMean_eq (vals weights : List ℚ) (hw : ∀ w ∈ weights, 0 ≤ w) :
    varMean vals weights = specMean vals weights := by
  unfold varMean specMean
  rw [sumPosWeighted_eq vals weights hw, clampTotal_eq weights hw]

theorem varSqDevTotal_eq (vals weights : List ℚ) (hw : ∀ w ∈ weights, 0 ≤ w) :
    varSqDevTotal vals weights = specSqDev vals weights := by
  unfold varSqDevTotal specSqDev
  rw [sumPosWeights_eq weights hw, sumPosSqDev_eq vals weights _ hw,
    varMean_eq vals weights hw]
  split_ifs with h
  · ring
  · ring

theorem varSumWeightsSq_eq (weights : List ℚ) (hw : ∀ w ∈ weights, 0 ≤ w) :
    varSumWeightsSq weights = specSumSq weights := by
  unfold varSumWeightsSq specSumSq
  rw [sumPosWeights_eq weights hw, sumPosWeightsSq_eq weights hw]
  split_ifs with h
  · ring
  · ring

theorem varNeff_eq (weights : List ℚ) (hw : ∀ w ∈ weights, 0 ≤ w) :
    varNeff weights = specNeff weights := by
  unfold varNeff specNeff
  rw [clampTotal_eq weights hw, varSumWeightsSq_eq weights hw]
  ring_nf

end FoldLemmas

theorem not_any_neg (weights : List ℚ) (hw : ∀ w ∈ weights, 0 ≤ w) :
    ¬ (weights.any (fun w => decide (w < 0)) = true) := by
  simp only [List.any_eq_true, decide_eq_true_eq, not_exists]
  rintro w ⟨hmem, hlt⟩
  exact absurd hlt (not_lt.mpr (hw w hmem))

/-- C1: for every valid input of equal-length values and weights arrays
with at least one positive weight, the weighted mean equals the sum of
weight_i * value_i divided by total_weight, where total_weight is 1.0
after sparse completion (explicit weights summing to w below 1.0 are
completed by an implicit zero-valued observation of weight 1.0 - w). -/
theorem claim_C1 (vals weights : List ℚ) (hlen : vals.length = weights.length)
    (hw : ∀ w ∈ weights, 0 ≤ w) (hpos : ∃ w ∈ weights, 0 < w) :
    weighted_mean_sparse_c vals weights =
      .ok (specWeightedSum vals weights / specTotalWeight weights) := by
  have hne : weights ≠ [] := by
    rintro rfl
    obtain ⟨w, hmem, _⟩ := hpos
    exact absurd hmem (List.not_mem_nil w)
  have hlen0 : ¬ vals.length = 0 := by
    rw [hlen]
    simpa using (List.length_pos.mpr hne).ne'
  unfold weighted_mean_sparse_c
  rw [if_neg (by simp [hlen]), if_neg hlen0, if_neg (not_any_neg weights hw),
    if_neg (clampTotal_ne_zero _), sumPosWeighted_eq vals weights hw,
    clampTotal_eq weights hw]

/-- Witness for C1 at the spec's example: values 10, weights 0.4 yield
weighted mean 4. -/
theorem claim_C1_witness : weighted_mean_sparse_c [10] [2/5] = .ok 4 := by
  have h := claim_C1 [10] [2/5] rfl
    (by intro w hmem; rw [List.mem_singleton] at hmem; rw [hmem]; norm_num)
    ⟨2/5, by simp, by norm_num⟩
  rw [h]
  norm_num [specWeightedSum, specTotalWeight]

/-- C2: for every valid input with ddof = 0, the weighted variance equals
the sum of weight_i * (value_i - mean)^2 over explicit positive-weight
pairs, plus the implicit-zero contribution (1 - sum of weights) * mean^2
when the weights sum below 1.0, all divided by total_weight. -/
theorem claim_C2 (vals weights : List ℚ) (hlen : vals.length = weights.length)
    (hw : ∀ w ∈ weights, 0 ≤ w) (hne : vals ≠ []) :
    weighted_variance_sparse_c vals weights 0 =
      .ok (specSqDev vals weights / specTotalWeight weights) := by
  have hlen0 : ¬ vals.length = 0 := by
    simpa using (List.length_pos.mpr hne).ne'
  unfold weighted_variance_sparse_c
  rw [if_neg (by simp [hlen]), if_neg hlen0, if_neg (not_any_neg weights hw),
    if_neg (clampTotal_ne_zero _), if_pos rfl, varSqDevTotal_eq vals weights hw,
    clampTotal_eq weights hw]

/-- Witness for C2 at the spec's example: values 10, weights 0.4,
ddof 0 yield variance 24 (mean 4, squared deviations 14.4 + 9.6). -/
theorem claim_C2_witness : weighted_variance_sparse_c [10] [2/5] 0 = .ok 24 := by
  have h := claim_C2 [10] [2/5] rfl
    (by intro w hmem; rw [List.mem_singleton] at hmem; rw [hmem]; norm_num)
    (by simp)
  rw [h]
  norm_num [specSqDev, specMean, specWeightedSum, specTotalWeight]

/-- C3: for every valid non-empty input and every ddof above zero,
weighted variance and weighted standard deviation return an explicit
undefined result (SQL NULL, not a numeric sentinel and not an aborting
failure) exactly when Kish's n_eff, computed including the implicit-zero
contribution, is at most ddof; otherwise they return
(sum_sq_dev / total_weight) * n_eff / (n_eff - ddof), respectively its
square root. -/
theorem claim_C3 (vals weights : List ℚ) (ddof : ℕ)
    (hlen : vals.length = weights.length) (hw : ∀ w ∈ weights, 0 ≤ w)
    (hne : vals ≠ []) (hd : 0 < ddof) :
    (weighted_variance_sparse_c vals weights ddof = .null ↔
        specNeff weights ≤ (ddof : ℚ))
    ∧ (specNeff weights ≤ (ddof : ℚ) →
        weighted_std_sparse_c vals weights ddof = .null)
    ∧ ((ddof : ℚ) < specNeff weights →
        weighted_variance_sparse_c vals weights ddof =
          .ok (specSampleVar vals weights ddof)
        ∧ weighted_std_sparse_c vals weights ddof =
          .ok (Real.sqrt ((specSampleVar vals weights ddof : ℚ) : ℝ))) := by
  have hlen0 : ¬ vals.length = 0 := by
    simpa using (List.length_pos.mpr hne).ne'
  have hd0 : ¬ ddof = 0 := hd.ne'
  have hvar : weighted_variance_sparse_c vals weights ddof =
      (if specNeff weights ≤ (ddof : ℚ) then PGResult.null
        else .ok (specSampleVar vals weights ddof)) := by
    unfold weighted_variance_sparse_c
    rw [if_neg (by simp [hlen]), if_neg hlen0, if_neg (not_any_neg weights hw),
      if_neg (clampTotal_ne_zero _), if_neg hd0, varNeff_eq weights hw,
      varSqDevTotal_eq vals weights hw, clampTotal_eq weights hw, specSampleVar]
  have hstd : weighted_std_sparse_c vals weights ddof =
      (if specNeff weights ≤ (ddof : ℚ) then PGResult.null
        else .ok (Real.sqrt ((specSampleVar vals weights ddof : ℚ) : ℝ))) := by
    unfold weighted_std_sparse_c
    rw [if_neg (by simp [hlen]), if_neg hlen0, if_neg (not_any_neg weights hw),
      if_neg (clampTotal_ne_zero _), if_neg hd0, varNeff_eq weights hw,
      varSqDevTotal_eq vals weights hw, clampTotal_eq weights hw, specSampleVar]
  rw [hvar, hstd]
  by_cases hcase : specNeff weights ≤ (ddof : ℚ)
  · rw [if_pos hcase, if_pos hcase]
    refine ⟨by simp [hcase], fun _ => rfl, fun hlt => absurd hcase (not_le.mpr hlt)⟩
  · rw [if_neg hcase, if_neg hcase]
    refine ⟨by simp [hcase], fun hle => absurd hle hcase, fun _ => ⟨rfl, rfl⟩⟩

/-- Witness for C3 at values 10, weights 0.4, ddof 1: n_eff is 25over13,
above 1, so the sample variance is defined and equals 50. -/
theorem claim_C3_witness :
    weighted_variance_sparse_c [10] [2/5] 1 = .ok 50
    ∧ weighted_std_sparse_c [10] [2/5] 1 = .ok (Real.sqrt 50) := by
  have h := claim_C3 [10] [2/5] 1 rfl
    (by intro w hmem; rw [List.mem_singleton] at hmem; rw [hmem]; norm_num)
    (by simp) Nat.one_pos
  have hneff : specNeff [2/5] = 25/13 := by
    norm_num [specNeff, specSumSq, specTotalWeight]
  have hlt : ((1:ℕ) : ℚ) < specNeff [2/5] := by rw [hneff]; norm_num
  obtain ⟨-, -, h3⟩ := h
  obtain ⟨hv, hs⟩ := h3 hlt
  have hval : specSampleVar [10] [2/5] 1 = 50 := by
    norm_num [specSampleVar, specSqDev, specMean, specWeightedSum, specTotalWeight,
      hneff]
  refine ⟨?_, ?_⟩
  · rw [hv, hval]
  · rw [hs, hval]
    norm_num

/-- C4: for every shared input, weighted_std returns exactly the square
root of the value weighted_variance returns, and is undefined exactly
when weighted_variance is undefined. -/
theorem claim_C4 (vals weights : List ℚ) (ddof : ℕ) :
    weighted_std_sparse_c vals weights ddof =
      pgMap (fun q : ℚ => Real.sqrt ((q : ℚ) : ℝ))
        (weighted_variance_sparse_c vals weights ddof) := by
  unfold weighted_std_sparse_c weighted_variance_sparse_c
  split_ifs <;> simp [pgMap, Real.sqrt_zero]

/-- C10: on empty input arrays the weighted mean returns SQL NULL while
weighted variance and weighted standard deviation return the numeric
value 0.0, for every ddof. -/
theorem claim_C10 :
    weighted_mean_sparse_c [] [] = .null
    ∧ ∀ ddof : ℕ, weighted_variance_sparse_c [] [] ddof = .ok 0
      ∧ weighted_std_sparse_c [] [] ddof = .ok 0 := by
  refine ⟨?_, fun ddof => ⟨?_, ?_⟩⟩
  · simp [weighted_mean_sparse_c]
  · simp [weighted_variance_sparse_c]
  · simp [weighted_std_sparse_c]

/-- Comparison sort of value-weight pairs by value: model of the qsort
calls with compare_value_weight (utils.c lines 20-28).  The libc qsort
is an opaque comparison sort; any comparison sort with this comparator
produces the same non-decreasing value sequence, and it is modelled by
insertion sort. -/
def valueSort (pairs : List (ℚ × ℚ)) : List (ℚ × ℚ) :=
  pairs.insertionSort (fun a b => a.1 ≤ b.1)

/-- The pair-building loop shared by the three quantile entry points
(weighted_quantiles.c lines 172-179): keep the pairs with weight > 0.0
in input order. -/
def buildPairs (vals weights : List ℚ) : List (ℚ × ℚ) :=
  (vals.zip weights).filter (fun p => decide (0 < p.2))

/-- Sparse completion (weighted_quantiles.c lines 182-187): when the kept
weights sum below 1.0, append the implicit zero-valued pair carrying the
missing weight. -/
def completePairs (vals weights : List ℚ) : List (ℚ × ℚ) :=
  if ((buildPairs vals weights).map Prod.snd).sum < 1 then
    buildPairs vals weights ++
      [(0, 1 - ((buildPairs vals weights).map Prod.snd).sum)]
  else buildPairs vals weights

/-- Value of the pair at index i (vw_pairs[i].value). -/
def valGet (pairs : List (ℚ × ℚ)) (i : ℕ) : ℚ := (pairs.getD i (0, 0)).1

/-- Weight of the pair at index i (vw_pairs[i].weight). -/
def wGet (pairs : List (ℚ × ℚ)) (i : ℕ) : ℚ := (pairs.getD i (0, 0)).2

/-- The running prefix sums of a list (the cumulative-weight loop of
weighted_quantiles.c lines 197-201): entry i holds the sum of the first
i + 1 elements plus the accumulator. -/
def prefixSums (acc : ℚ) : List ℚ → List ℚ
  | [] => []
  | w :: ws => (acc + w) :: prefixSums (acc + w) ws

/-- cumulative_weights[i] for the sorted pair list. -/
def cumGet (pairs : List (ℚ × ℚ)) (i : ℕ) : ℚ :=
  (prefixSums 0 (pairs.map Prod.snd)).getD i 0

/-- The binary-search loop of weighted_quantile_sparse_c lines 218-230,
searching the smallest index whose cumulative weight reaches the target.
The int variables left, right, pos are modelled over the integers (right
becomes -1 when the loop closes from mid = 0); the loop runs at most
one iteration per unit of right - left + 1, so the fuel n + 1 supplied
by ecdfPos is never exhausted. -/
def bsearchLoop (cum : List ℚ) (target : ℚ) : ℕ → ℤ → ℤ → ℤ → ℤ
  | 0, _, _, pos => pos
  | fuel + 1, left, right, pos =>
    if left ≤ right then
      if target ≤ cum.getD ((left + right) / 2).toNat 0 then
        bsearchLoop cum target fuel left ((left + right) / 2 - 1) ((left + right) / 2)
      else
        bsearchLoop cum target fuel ((left + right) / 2 + 1) right pos
    else pos

/-- pos after the binary search, initialized as in lines 218-219 with
left = 0 and right = pos = n_pairs - 1. -/
def ecdfPos (cum : List ℚ) (target : ℚ) (n : ℕ) : ℕ :=
  (bsearchLoop cum target (n + 1) 0 ((n : ℤ) - 1) ((n : ℤ) - 1)).toNat

/-- The linear interpolation of weighted_quantile_sparse_c lines 235-241
between the pair below position i and the pair at position i. -/
def segVal (pairs : List (ℚ × ℚ)) (i : ℕ) (t : ℚ) : ℚ :=
  valGet pairs (i - 1) +
    (t - cumGet pairs (i - 1)) / (cumGet pairs i - cumGet pairs (i - 1)) *
      (valGet pairs i - valGet pairs (i - 1))

/-- Per-level empirical-CDF quantile (weighted_quantile_sparse_c lines
204-245) over the completed sorted pair list.  total_weight at that point
equals the sum of the pair weights. -/
def ecdfQ (pairs : List (ℚ × ℚ)) (q : ℚ) : ℚ :=
  if q ≤ 0 then valGet pairs 0
  else if 1 ≤ q then valGet pairs (pairs.length - 1)
  else if q * (pairs.map Prod.snd).sum ≤ wGet pairs 0 then valGet pairs 0
  else if ecdfPos (prefixSums 0 (pairs.map Prod.snd))
          (q * (pairs.map Prod.snd).sum) pairs.length = 0
        ∨ cumGet pairs (ecdfPos (prefixSums 0 (pairs.map Prod.snd))
            (q * (pairs.map Prod.snd).sum) pairs.length) =
          q * (pairs.map Prod.snd).sum then
    valGet pairs (ecdfPos (prefixSums 0 (pairs.map Prod.snd))
      (q * (pairs.map Prod.snd).sum) pairs.length)
  else
    segVal pairs (ecdfPos (prefixSums 0 (pairs.map Prod.snd))
      (q * (pairs.map Prod.snd).sum) pairs.length)
      (q * (pairs.map Prod.snd).sum)

/-- Weight normalization of wquantile_sparse_c lines 365-367 (and
whdquantile_sparse_c lines 538-540): divide every weight by the total. -/
def normPairs (pairs : List (ℚ × ℚ)) : List (ℚ × ℚ) :=
  pairs.map (fun p => (p.1, p.2 / (pairs.map Prod.snd).sum))

/-- Kish effective sample size of the normalized pairs (lines 370-374):
1.0 / sum of squared weights. -/
def kishNeff (pairs : List (ℚ × ℚ)) : ℚ :=
  1 / (pairs.foldl (fun acc p => acc + p.2 * p.2) 0)

/-- cum_probs[j] of lines 377-381: n + 1 cumulative probabilities with
cum_probs[0] = 0. -/
def cumProb (pairs : List (ℚ × ℚ)) (j : ℕ) : ℚ :=
  (0 :: prefixSums 0 (pairs.map Prod.snd)).getD j 0

/-- The clamped Type 7 CDF weight of wquantile_sparse_c lines 400-405:
u = max((h-1)/n_eff, min(h/n_eff, cp)) and w = u * n_eff - h + 1. -/
def t7Contrib (neff h cp : ℚ) : ℚ :=
  (max ((h - 1) / neff) (min (h / neff) cp)) * neff - h + 1

/-- Per-level Type 7 quantile (wquantile_sparse_c lines 386-419) over the
completed sorted pair list, including the per-call normalization. -/
def wquantileLevel (pairs : List (ℚ × ℚ)) (p : ℚ) : ℚ :=
  if p ≤ 0 then valGet (normPairs pairs) 0
  else if 1 ≤ p then valGet (normPairs pairs) ((normPairs pairs).length - 1)
  else
    (List.range (normPairs pairs).length).foldl
      (fun acc i =>
        acc +
          (t7Contrib (kishNeff (normPairs pairs))
              (p * (kishNeff (normPairs pairs) - 1) + 1)
              (cumProb (normPairs pairs) (i + 1)) -
            if 0 < i then
              t7Contrib (kishNeff (normPairs pairs))
                (p * (kishNeff (normPairs pairs) - 1) + 1)
                (cumProb (normPairs pairs) i)
            else 0) *
            valGet (normPairs pairs) i)
      0

/-- One numerator term of the continued fraction for the regularized
incomplete Beta function (weighted_quantiles.c lines 55-63). -/
noncomputable def betaNumerator (a b x : ℝ) (i : ℕ) : ℝ :=
  if i = 0 then 1
  else if i % 2 = 0 then
    ((i / 2 : ℕ) : ℝ) * (b - ((i / 2 : ℕ) : ℝ)) * x /
      ((a + 2 * ((i / 2 : ℕ) : ℝ) - 1) * (a + 2 * ((i / 2 : ℕ) : ℝ)))
  else
    -((a + ((i / 2 : ℕ) : ℝ)) * (a + b + ((i / 2 : ℕ) : ℝ)) * x) /
      ((a + 2 * ((i / 2 : ℕ) : ℝ)) * (a + 2 * ((i / 2 : ℕ) : ℝ) + 1))

/-- Lentz iteration of weighted_quantiles.c lines 52-80: at most 201
steps (i = 0 to 200); none models the NaN returned on non-convergence
(line 83).  Convergence is the per-step update factor lying within
1e-8 of 1. -/
noncomputable def lentzLoop (a b x : ℝ) : ℕ → ℕ → ℝ → ℝ → ℝ → Option ℝ
  | 0, _, _, _, _ => none
  | fuel + 1, i, f, c, d =>
    let numerator := betaNumerator a b x i
    let d1 := 1 + numerator * d
    let d2 := if |d1| < 1e-30 then (1e-30 : ℝ) else d1
    let d3 := 1 / d2
    let c1 := 1 + numerator / c
    let c2 := if |c1| < 1e-30 then (1e-30 : ℝ) else c1
    let cd := c2 * d3
    let f2 := f * cd
    if |1 - cd| < 1e-8 then some f2
    else lentzLoop a b x fuel (i + 1) f2 c2 d3

/-- The convergent-case return value front * (f - 1) with
front = exp(log(x) * a + log(1-x) * b - lbeta_ab) / a (lines 28-29, 78). -/
noncomputable def betaFront (x a b : ℝ) : ℝ :=
  Real.exp (Real.log x * a + Real.log (1 - x) * b -
    (Real.log (Real.Gamma a) + Real.log (Real.Gamma b) -
      Real.log (Real.Gamma (a + b)))) / a

/-- beta_cdf of weighted_quantiles.c lines 27-84, with explicit recursion
fuel for the single symmetry-identity self-call of line 48 (the inner
call never recurses again, so fuel 2 suffices). -/
noncomputable def beta_cdf_go : ℕ → ℝ → ℝ → ℝ → Option ℝ
  | 0, _, _, _ => none
  | fuel + 1, x, a, b =>
    if x ≤ 0 then some 0
    else if 1 ≤ x then some 1
    else if a ≤ 0 ∨ b ≤ 0 then none
    else if (a + 1) / (a + b + 2) < x then
      (beta_cdf_go fuel (1 - x) b a).map (fun r => 1 - r)
    else
      (lentzLoop a b x 201 0 1 1 0).map (fun f => betaFront x a b * (f - 1))

/-- The regularized incomplete Beta function evaluator beta_cdf; none
models a NaN return. -/
noncomputable def beta_cdf (x a b : ℝ) : Option ℝ := beta_cdf_go 2 x a b

/-- n_eff used by the Harrell-Davis estimator (whdquantile_sparse_c
lines 543-547). -/
def hdNeff (pairs : List (ℚ × ℚ)) : ℚ := kishNeff (normPairs pairs)

/-- Beta parameter a = (n_eff + 1) * p (line 564). -/
def hdA (pairs : List (ℚ × ℚ)) (p : ℚ) : ℚ := (hdNeff pairs + 1) * p

/-- Beta parameter b = (n_eff + 1) * (1 - p) (line 565). -/
def hdB (pairs : List (ℚ × ℚ)) (p : ℚ) : ℚ := (hdNeff pairs + 1) * (1 - p)

/-- Per-level Harrell-Davis quantile (whdquantile_sparse_c lines 559-581)
over the completed sorted pair list; none models the NaN result, both
for the degenerate guard of line 568 and for a NaN propagated from
beta_cdf through the accumulation loop. -/
noncomputable def hdLevel (pairs : List (ℚ × ℚ)) (p : ℚ) : Option ℝ :=
  if p ≤ 0 ∨ 1 ≤ p ∨ hdNeff pairs ≤ 1 ∨ (normPairs pairs).length ≤ 1
      ∨ hdA pairs p ≤ 0 ∨ hdB pairs p ≤ 0 then none
  else
    (List.range (normPairs pairs).length).foldl
      (fun acc i =>
        acc.bind (fun s =>
          (beta_cdf ((cumProb (normPairs pairs) i : ℚ) : ℝ)
              ((hdA pairs p : ℚ) : ℝ) ((hdB pairs p : ℚ) : ℝ)).bind (fun lo =>
            (beta_cdf ((cumProb (normPairs pairs) (i + 1) : ℚ) : ℝ)
                ((hdA pairs p : ℚ) : ℝ) ((hdB pairs p : ℚ) : ℝ)).map (fun hi =>
              s + (hi - lo) * ((valGet (normPairs pairs) i : ℚ) : ℝ)))))
      (some 0)

/-- Entry point weighted_quantile_sparse_c (weighted_quantiles.c lines
93-262): validate the requested levels (lines 141-150), extract the
arrays (length mismatch aborts), build, complete and sort the pairs, and
evaluate every level. -/
def weighted_quantile_sparse_c (vals weights qs : List ℚ) : PGResult (List ℚ) :=
  if qs.any (fun q => decide (q < 0) || decide (1 < q)) then .error
  else if vals.length ≠ weights.length then .error
  else .ok (qs.map (ecdfQ (valueSort (completePairs vals weights))))

/-- Entry point wquantile_sparse_c (weighted_quantiles.c lines 271-435). -/
def wquantile_sparse_c (vals weights qs : List ℚ) : PGResult (List ℚ) :=
  if qs.any (fun q => decide (q < 0) || decide (1 < q)) then .error
  else if vals.length ≠ weights.length then .error
  else .ok (qs.map (wquantileLevel (valueSort (completePairs vals weights))))

/-- Entry point whdquantile_sparse_c (weighted_quantiles.c lines
444-597). -/
noncomputable def whdquantile_sparse_c (vals weights qs : List ℚ) :
    PGResult (List (Option ℝ)) :=
  if qs.any (fun q => decide (q < 0) || decide (1 < q)) then .error
  else if vals.length ≠ weights.length then .error
  else .ok (qs.map (hdLevel (valueSort (completePairs vals weights))))

/-- Minimum of a value list (first element once sorted). -/
def listMin : List ℚ → ℚ
  | [] => 0
  | v :: vs => vs.foldl min v

/-- Maximum of a value list (last element once sorted). -/
def listMax : List ℚ → ℚ
  | [] => 0
  | v :: vs => vs.foldl max v

section SortedLemmas

theorem foldl_min_of_le (l : List ℚ) :
    ∀ v : ℚ, (∀ x ∈ l, v ≤ x) → l.foldl min v = v := by
  induction l with
  | nil => intro v _; rfl
  | cons x t ih =>
    intro v h
    simp only [List.foldl_cons]
    rw [min_eq_left (h x (List.mem_cons_self _ _))]
    exact ih v (fun y hy => h y (List.mem_cons_of_mem _ hy))

theorem listMin_sorted (l : List ℚ) (hne : l ≠ []) (hs : List.Sorted (· ≤ ·) l) :
    listMin l = l.getD 0 0 := by
  cases l with
  | nil => exact absurd rfl hne
  | cons v vs =>
    simp only [listMin, List.getD_cons_zero]
    exact foldl_min_of_le vs v (fun x hx => (List.sorted_cons.mp hs).1 x hx)

theorem listMax_sorted :
    ∀ l : List ℚ, l ≠ [] → List.Sorted (· ≤ ·) l → listMax l = l.getD (l.length - 1) 0 := by
  intro l
  induction l with
  | nil => intro hne _; exact absurd rfl hne
  | cons v vs ih =>
    intro _ hs
    cases vs with
    | nil => rfl
    | cons w t =>
      have hcons := List.sorted_cons.mp hs
      have hvw : v ≤ w := hcons.1 w (List.mem_cons_self _ _)
      have hmax : listMax (v :: w :: t) = listMax (w :: t) := by
        simp only [listMax, List.foldl_cons]
        rw [max_eq_right hvw]
      rw [hmax, ih (by simp) hcons.2]
      simp only [List.length_cons, Nat.add_sub_cancel, List.getD_cons_succ]

theorem valGet_map : ∀ (pairs : List (ℚ × ℚ)) (i : ℕ),
    (pairs.map Prod.fst).getD i 0 = valGet pairs i := by
  intro pairs
  induction pairs with
  | nil => intro i; rfl
  | cons p t ih =>
    intro i
    cases i with
    | zero => rfl
    | succ j =>
      simp only [List.map_cons, List.getD_cons_succ, valGet, List.getD_cons_succ] at *
      exact ih j

theorem normPairs_length (pairs : List (ℚ × ℚ)) :
    (normPairs pairs).length = pairs.length := by
  simp [normPairs]

theorem normPairs_val (pairs : List (ℚ × ℚ)) :
    ∀ i : ℕ, valGet (normPairs pairs) i = valGet pairs i := by
  have : ∀ (s : ℚ) (l : List (ℚ × ℚ)) (i : ℕ),
      ((l.map (fun p => (p.1, p.2 / s))).getD i (0, 0)).1 = (l.getD i (0, 0)).1 := by
    intro s l
    induction l with
    | nil => intro i; rfl
    | cons p t ih =>
      intro i
      cases i with
      | zero => rfl
      | succ j =>
        simp only [List.map_cons, List.getD_cons_succ]
        exact ih j
  intro i
  exact this _ pairs i

end SortedLemmas

/-- C5: over a completed, sorted, non-empty sample, the empirical-CDF and
Type 7 estimators return the minimum value of the completed sample for
every requested level at most 0 and the maximum for every level at least
1; the Harrell-Davis estimator instead returns NaN (none) at those
boundary levels, and also whenever n_eff is at most 1, the sample has at
most one pair, a is at most 0, or b is at most 0. -/
theorem claim_C5 (pairs : List (ℚ × ℚ)) (hne : pairs ≠ [])
    (hsort : List.Sorted (fun a b : ℚ × ℚ => a.1 ≤ b.1) pairs)
    (htot : (pairs.map Prod.snd).sum = 1) :
    (∀ q : ℚ, q ≤ 0 → ecdfQ pairs q = listMin (pairs.map Prod.fst)
      ∧ wquantileLevel pairs q = listMin (pairs.map Prod.fst))
    ∧ (∀ q : ℚ, 1 ≤ q → ecdfQ pairs q = listMax (pairs.map Prod.fst)
      ∧ wquantileLevel pairs q = listMax (pairs.map Prod.fst))
    ∧ (∀ p : ℚ, p ≤ 0 ∨ 1 ≤ p ∨ hdNeff pairs ≤ 1 ∨ pairs.length ≤ 1
        ∨ hdA pairs p ≤ 0 ∨ hdB pairs p ≤ 0 → hdLevel pairs p = none) := by
  have hvs : List.Sorted (· ≤ ·) (pairs.map Prod.fst) :=
    List.Pairwise.map Prod.fst (fun a b h => h) hsort
  have hvne : pairs.map Prod.fst ≠ [] := by
    simpa using hne
  have hmin : listMin (pairs.map Prod.fst) = valGet pairs 0 := by
    rw [listMin_sorted _ hvne hvs, valGet_map]
  have hmax : listMax (pairs.map Prod.fst) = valGet pairs (pairs.length - 1) := by
    rw [listMax_sorted _ hvne hvs, List.length_map, valGet_map]
  refine ⟨fun q hq => ⟨?_, ?_⟩, fun q hq => ⟨?_, ?_⟩, fun p hp => ?_⟩
  · rw [ecdfQ, if_pos hq, hmin]
  · rw [wquantileLevel, if_pos hq, hmin, normPairs_val]
  · rw [ecdfQ, if_neg (by linarith), if_pos hq, hmax]
  · rw [wquantileLevel, if_neg (by linarith), if_pos hq, hmax, normPairs_length,
      normPairs_val]
  · rw [hdLevel, if_pos (by rwa [normPairs_length])]

/-- Witness for C5 on the two-pair sample (1, one half), (2, one half):
levels 0 and 1 give the minimum 1 and maximum 2 for the empirical-CDF
and Type 7 estimators, and the Harrell-Davis estimator is undefined at
level 0. -/
theorem claim_C5_witness :
    ecdfQ [(1, 1/2), (2, 1/2)] 0 = 1
    ∧ ecdfQ [(1, 1/2), (2, 1/2)] 1 = 2
    ∧ wquantileLevel [(1, 1/2), (2, 1/2)] 0 = 1
    ∧ wquantileLevel [(1, 1/2), (2, 1/2)] 1 = 2
    ∧ hdLevel [(1, 1/2), (2, 1/2)] 0 = none := by
  obtain ⟨h1, h2, h3⟩ := claim_C5 [(1, 1/2), (2, 1/2)] (by simp)
    (by norm_num [List.sorted_cons])
    (by norm_num)
  have hmin : listMin ([(1, 1/2), (2, 1/2)].map (Prod.fst (α := ℚ) (β := ℚ))) = 1 := by
    norm_num [listMin]
  have hmax : listMax ([(1, 1/2), (2, 1/2)].map (Prod.fst (α := ℚ) (β := ℚ))) = 2 := by
    norm_num [listMax]
  exact ⟨by rw [(h1 0 le_rfl).1, hmin], by rw [(h2 1 le_rfl).1, hmax],
    by rw [(h1 0 le_rfl).2, hmin], by rw [(h2 1 le_rfl).2, hmax],
    h3 0 (Or.inl le_rfl)⟩

/-- C9 as amended: on an input with a negative weight, weighted mean,
weighted variance and weighted standard deviation fail with InvalidInput
(the ereport aborts the call with no partial result), but the three
quantile estimators do not reject the negative weight: their
pair-building loop silently skips every non-positive-weight pair and the
call returns a result array. -/
theorem claim_C9 (vals weights qs : List ℚ) (ddof : ℕ)
    (hlen : vals.length = weights.length)
    (hneg : ∃ w ∈ weights, w < 0)
    (hq : ∀ q ∈ qs, 0 ≤ q ∧ q ≤ 1) :
    weighted_mean_sparse_c vals weights = .error
    ∧ weighted_variance_sparse_c vals weights ddof = .error
    ∧ weighted_std_sparse_c vals weights ddof = .error
    ∧ weighted_quantile_sparse_c vals weights qs ≠ .error
    ∧ wquantile_sparse_c vals weights qs ≠ .error
    ∧ whdquantile_sparse_c vals weights qs ≠ .error := by
  have hne : weights ≠ [] := by
    rintro rfl
    obtain ⟨w, hmem, -⟩ := hneg
    exact absurd hmem (List.not_mem_nil w)
  have hlen0 : ¬ vals.length = 0 := by
    rw [hlen]
    simpa using (List.length_pos.mpr hne).ne'
  have hany : weights.any (fun w => decide (w < 0)) = true := by
    simpa only [List.any_eq_true, decide_eq_true_eq] using hneg
  have hqs : ¬ (qs.any (fun q => decide (q < 0) || decide (1 < q)) = true) := by
    simp only [List.any_eq_true, Bool.or_eq_true, decide_eq_true_eq, not_exists]
    rintro q ⟨hmem, hbad⟩
    rcases hbad with hbad | hbad
    · exact absurd hbad (not_lt.mpr (hq q hmem).1)
    · exact absurd hbad (not_lt.mpr (hq q hmem).2)
  refine ⟨?_, ?_, ?_, ?_, ?_, ?_⟩
  · rw [weighted_mean_sparse_c, if_neg (by simp [hlen]), if_neg hlen0, if_pos hany]
  · rw [weighted_variance_sparse_c, if_neg (by simp [hlen]), if_neg hlen0, if_pos hany]
  · rw [weighted_std_sparse_c, if_neg (by simp [hlen]), if_neg hlen0, if_pos hany]
  · rw [weighted_quantile_sparse_c, if_neg hqs, if_neg (by simp [hlen])]
    simp
  · rw [wquantile_sparse_c, if_neg hqs, if_neg (by simp [hlen])]
    simp
  · rw [whdquantile_sparse_c, if_neg hqs, if_neg (by simp [hlen])]
    simp

/-- Witness for the amended C9 at values 5, weights -1, level one half. -/
theorem claim_C9_witness :
    weighted_mean_sparse_c [5] [-1] = .error
    ∧ weighted_variance_sparse_c [5] [-1] 0 = .error
    ∧ weighted_std_sparse_c [5] [-1] 0 = .error
    ∧ weighted_quantile_sparse_c [5] [-1] [1/2] ≠ .error
    ∧ wquantile_sparse_c [5] [-1] [1/2] ≠ .error
    ∧ whdquantile_sparse_c [5] [-1] [1/2] ≠ .error :=
  claim_C9 [5] [-1] [1/2] 0 rfl ⟨-1, by simp, by norm_num⟩
    (by intro q hqmem; rw [List.mem_singleton] at hqmem; subst hqmem; norm_num)

/-- Counterexample to C9 as stated: on the negative-weight input
(values 5, weights -1) the empirical-CDF quantile call does not fail
with InvalidInput; it silently drops the pair, completes with the
implicit zero pair of weight 1 and returns the array [0] for the
requested level one half. -/
theorem claim_C9_cx :
    weighted_quantile_sparse_c [5] [-1] [1/2] = .ok [0] := by
  norm_num [weighted_quantile_sparse_c, completePairs, buildPairs, valueSort,
    List.insertionSort, ecdfQ, valGet, wGet, cumGet, prefixSums]

theorem beta_cdf_go_succ (fuel : ℕ) (x a b : ℝ) :
    beta_cdf_go (fuel + 1) x a b =
      if x ≤ 0 then some 0
      else if 1 ≤ x then some 1
      else if a ≤ 0 ∨ b ≤ 0 then none
      else if (a + 1) / (a + b + 2) < x then
        (beta_cdf_go fuel (1 - x) b a).map (fun r => 1 - r)
      else
        (lentzLoop a b x 201 0 1 1 0).map (fun f => betaFront x a b * (f - 1)) := rfl

/-- C8: the Beta-CDF evaluator returns 0.0 for x at most 0 and 1.0 for x
at least 1; for x strictly inside (0,1) it returns NaN when a or b is
non-positive; it applies the symmetry identity, evaluating the mirrored
argument and returning one minus that result, exactly when x exceeds
(a+1)/(a+b+2); and otherwise its result is the Lentz continued-fraction
loop output (200-term budget, convergence when the per-term update
factor is within 1e-8 of 1) mapped through front * (f - 1), so a
non-convergent loop yields NaN rather than a number. -/
theorem claim_C8 :
    (∀ x a b : ℝ, x ≤ 0 → beta_cdf x a b = some 0)
    ∧ (∀ x a b : ℝ, 1 ≤ x → beta_cdf x a b = some 1)
    ∧ (∀ x a b : ℝ, 0 < x → x < 1 → a ≤ 0 ∨ b ≤ 0 → beta_cdf x a b = none)
    ∧ (∀ x a b : ℝ, 0 < x → x < 1 → 0 < a → 0 < b → (a + 1) / (a + b + 2) < x →
        beta_cdf x a b = (beta_cdf (1 - x) b a).map (fun r => 1 - r))
    ∧ (∀ x a b : ℝ, 0 < x → x < 1 → 0 < a → 0 < b → ¬ ((a + 1) / (a + b + 2) < x) →
        beta_cdf x a b =
          (lentzLoop a b x 201 0 1 1 0).map (fun f => betaFront x a b * (f - 1))) := by
  refine ⟨?_, ?_, ?_, ?_, ?_⟩
  · intro x a b hx
    rw [beta_cdf, beta_cdf_go_succ, if_pos hx]
  · intro x a b hx
    rw [beta_cdf, beta_cdf_go_succ, if_neg (by linarith), if_pos hx]
  · intro x a b hx0 hx1 hab
    rw [beta_cdf, beta_cdf_go_succ, if_neg (by linarith), if_neg (by linarith),
      if_pos hab]
  · intro x a b hx0 hx1 ha hb hthr
    have hd : (0 : ℝ) < a + b + 2 := by linarith
    have hinner : 1 - x ≤ (b + 1) / (b + a + 2) := by
      rw [le_div_iff (by linarith)]
      rw [div_lt_iff hd] at hthr
      nlinarith
    have hgo : beta_cdf_go 1 (1 - x) b a = beta_cdf_go 2 (1 - x) b a := by
      rw [beta_cdf_go_succ, beta_cdf_go_succ, if_neg (by linarith), if_neg (by linarith),
        if_neg (by push_neg; constructor <;> linarith), if_neg (not_lt.mpr hinner),
        if_neg (by linarith), if_neg (by linarith),
        if_neg (by push_neg; constructor <;> linarith), if_neg (not_lt.mpr hinner)]
    rw [beta_cdf, beta_cdf_go_succ, if_neg (by linarith), if_neg (by linarith),
      if_neg (by push_neg; constructor <;> linarith), if_pos hthr, beta_cdf, ← hgo]
  · intro x a b hx0 hx1 ha hb hthr
    rw [beta_cdf, beta_cdf_go_succ, if_neg (by linarith), if_neg (by linarith),
      if_neg (by push_neg; constructor <;> linarith), if_neg hthr]

/-- Witness for C8 at concrete arguments on each branch of the contract:
x below 0, x above 1, a non-positive, the symmetry region
x = 3 over 4 with a = b = 1, and the direct region x = 1 over 4. -/
theorem claim_C8_witness :
    beta_cdf (-1) 2 3 = some 0
    ∧ beta_cdf 2 2 3 = some 1
    ∧ beta_cdf (1/2) (-1) 1 = none
    ∧ beta_cdf (3/4) 1 1 = (beta_cdf (1 - 3/4) 1 1).map (fun r => 1 - r)
    ∧ beta_cdf (1/4) 1 1 =
        (lentzLoop 1 1 (1/4) 201 0 1 1 0).map (fun f => betaFront (1/4) 1 1 * (f - 1)) := by
  obtain ⟨h1, h2, h3, h4, h5⟩ := claim_C8
  exact ⟨h1 _ _ _ (by norm_num), h2 _ _ _ (by norm_num),
    h3 _ _ _ (by norm_num) (by norm_num) (Or.inl (by norm_num)),
    h4 (3/4) 1 1 (by norm_num) (by norm_num) (by norm_num) (by norm_num) (by norm_num),
    h5 (1/4) 1 1 (by norm_num) (by norm_num) (by norm_num) (by norm_num) (by norm_num)⟩

/-- Exact numeric value of a finite IEEE-754 double with the given 64-bit
pattern: sign bit, 11-bit biased exponent, 52-bit mantissa. -/
def toVal (bits : ℕ) : ℚ :=
  if bits / 2 ^ 63 = 1 then
    -(if bits / 2 ^ 52 % 2 ^ 11 = 0 then ((bits % 2 ^ 52 : ℕ) : ℚ) * (2 : ℚ) ^ (-1074 : ℤ)
      else ((2 ^ 52 + bits % 2 ^ 52 : ℕ) : ℚ) *
        (2 : ℚ) ^ ((bits / 2 ^ 52 % 2 ^ 11 : ℕ) - 1075 : ℤ))
  else
    (if bits / 2 ^ 52 % 2 ^ 11 = 0 then ((bits % 2 ^ 52 : ℕ) : ℚ) * (2 : ℚ) ^ (-1074 : ℤ)
      else ((2 ^ 52 + bits % 2 ^ 52 : ℕ) : ℚ) *
        (2 : ℚ) ^ ((bits / 2 ^ 52 % 2 ^ 11 : ℕ) - 1075 : ℤ))

/-- The monotonic key transform of utils.c lines 58-65 on a 64-bit word:
if the sign bit is set, complement the whole word, otherwise set the
sign bit. -/
def keyTransform (u : ℕ) : ℕ :=
  if 2 ^ 63 ≤ u then 2 ^ 64 - 1 - u else u + 2 ^ 63

/-- Byte extraction (key >> shift) & 0xFF with shift = byte * 8. -/
def byteOf (k : ℕ) (byte : ℕ) : ℕ := k / 2 ^ (byte * 8) % 256

/-- One stable counting pass (utils.c lines 48-89 and 121-150): the C
code counts the occurrences of each bucket value, prefix-sums the counts
so that count[b] becomes the number of elements with bucket at most b,
and then walks the input from the last index down, executing
temp[--count[bucket]] = pairs[i].  For a bucket function whose values
all lie below nb (true at every call site: a byte is below 256, and the
counting-sort path range-checks its indices before this pass), that
placement fills, for each bucket b, the output segment between the
prefix sums count[b-1] and count[b] with exactly the input elements of
bucket b, kept in input order because the backward walk with a
decrementing cursor places them back to front.  The pass is therefore
the concatenation, over the buckets 0, 1, ..., nb-1 in order, of the
input filtered to that bucket, which is the form embedded here. -/
def countingPass {α : Type} (bucket : α → ℕ) (nb : ℕ) (l : List α) : List α :=
  ((List.range nb).map (fun b => l.filter (fun x => decide (bucket x = b)))).flatten

/-- Comparison-sort model of the libc qsort with compare_value_weight over
bit-pattern values: sorts by the decoded numeric value. -/
def qsortModel (l : List (ℕ × ℚ)) : List (ℕ × ℚ) :=
  l.insertionSort (fun a b => toVal a.1 ≤ toVal b.1)

/-- radix_sort_value_weight_pairs (utils.c lines 31-92): below 256
elements it falls back to the comparison sort; otherwise it performs the
byte-wise stable counting passes in the order written in the C loop,
from the most significant byte 7 down to the least significant byte 0. -/
def radix_sort_value_weight_pairs (l : List (ℕ × ℚ)) : List (ℕ × ℚ) :=
  if l.length ≤ 1 then l
  else if l.length < 256 then qsortModel l
  else
    [7, 6, 5, 4, 3, 2, 1, 0].foldl
      (fun acc byte => countingPass (fun p => byteOf (keyTransform p.1) byte) 256 acc) l

/-- counting_sort_value_weight_pairs (utils.c lines 95-154): range guards
with fallback to the radix sort, bucket index the truncation of
value - min (non-negative there, hence the floor), and one stable
counting placement. -/
def counting_sort_value_weight_pairs (l : List (ℕ × ℚ)) : List (ℕ × ℚ) :=
  if l.length ≤ 1 then l
  else if (l.map (fun p => toVal p.1)).foldl max (toVal (l.headI).1) -
        (l.map (fun p => toVal p.1)).foldl min (toVal (l.headI).1) ≤ 0
      ∨ 10000 < (l.map (fun p => toVal p.1)).foldl max (toVal (l.headI).1) -
        (l.map (fun p => toVal p.1)).foldl min (toVal (l.headI).1)
      ∨ ¬ ((l.map (fun p => toVal p.1)).foldl max (toVal (l.headI).1) -
            (l.map (fun p => toVal p.1)).foldl min (toVal (l.headI).1) =
          ((⌊(l.map (fun p => toVal p.1)).foldl max (toVal (l.headI).1) -
            (l.map (fun p => toVal p.1)).foldl min (toVal (l.headI).1)⌋ : ℤ) : ℚ)) then
    radix_sort_value_weight_pairs l
  else if l.any (fun p =>
      decide (⌊toVal p.1 - (l.map (fun q => toVal q.1)).foldl min (toVal (l.headI).1)⌋ < 0)
      || decide (⌊(l.map (fun q => toVal q.1)).foldl max (toVal (l.headI).1) -
            (l.map (fun q => toVal q.1)).foldl min (toVal (l.headI).1)⌋ + 1 ≤
          ⌊toVal p.1 - (l.map (fun q => toVal q.1)).foldl min (toVal (l.headI).1)⌋)) then
    radix_sort_value_weight_pairs l
  else
    countingPass
      (fun p => (⌊toVal p.1 -
        (l.map (fun q => toVal q.1)).foldl min (toVal (l.headI).1)⌋).toNat)
      ((⌊(l.map (fun p => toVal p.1)).foldl max (toVal (l.headI).1) -
        (l.map (fun p => toVal p.1)).foldl min (toVal (l.headI).1)⌋).toNat + 1) l

/-- optimized_sort_value_weight_pairs (utils.c lines 157-190): qsort
below 32 elements; counting sort for all-integer values with range in
(0, 1000] and more than 100 elements; radix sort otherwise. -/
def optimized_sort_value_weight_pairs (l : List (ℕ × ℚ)) : List (ℕ × ℚ) :=
  if l.length ≤ 1 then l
  else if l.length < 32 then qsortModel l
  else if (∀ p ∈ l, toVal p.1 = ((⌊toVal p.1⌋ : ℤ) : ℚ))
      ∧ 0 < (l.map (fun p => toVal p.1)).foldl max (toVal (l.headI).1) -
        (l.map (fun p => toVal p.1)).foldl min (toVal (l.headI).1)
      ∧ (l.map (fun p => toVal p.1)).foldl max (toVal (l.headI).1) -
        (l.map (fun p => toVal p.1)).foldl min (toVal (l.headI).1) ≤ 1000
      ∧ 100 < l.length then
    counting_sort_value_weight_pairs l
  else
    radix_sort_value_weight_pairs l

/-- Failing input for the radix-sort path: 254 zero doubles followed by
1.5 (pattern 0x3FF8000000000000) and 2.25 (pattern 0x4002000000000000),
256 pairs in all, so the dispatch analysis sees a non-integer value and
the radix byte passes run. -/
def c7FailingInput : List (ℕ × ℚ) :=
  List.replicate 254 (0, 1) ++ [(0x3FF8000000000000, 1), (0x4002000000000000, 1)]

theorem flatten_map_if_single {α : Type} (X : List α) (c : ℕ) :
    ∀ bs : List ℕ, List.Pairwise (· < ·) bs →
      (bs.map (fun b => if b = c then X else [])).flatten = (if c ∈ bs then X else []) := by
  intro bs
  induction bs with
  | nil => intro _; simp
  | cons b t ih =>
    intro hp
    obtain ⟨hbt, hpt⟩ := List.pairwise_cons.mp hp
    by_cases hbc : b = c
    · have hnot : c ∉ t := fun hmem => by
        have := hbt c hmem
        omega
      simp [hbc, ih hpt, hnot]
    · have hcb : ¬ c = b := fun h => hbc h.symm
      simp [hbc, hcb, ih hpt]

theorem flatten_map_if_three {α : Type} (X1 X2 X3 : List α) (c1 c2 c3 : ℕ)
    (h12 : c1 < c2) (h23 : c2 < c3) :
    ∀ bs : List ℕ, List.Pairwise (· < ·) bs →
      (bs.map (fun b =>
        (if b = c1 then X1 else []) ++ (if b = c2 then X2 else []) ++
          (if b = c3 then X3 else []))).flatten =
        (if c1 ∈ bs then X1 else []) ++ (if c2 ∈ bs then X2 else []) ++
          (if c3 ∈ bs then X3 else []) := by
  intro bs
  induction bs with
  | nil => intro _; simp
  | cons b t ih =>
    intro hp
    obtain ⟨hbt, hpt⟩ := List.pairwise_cons.mp hp
    simp only [List.map_cons, List.flatten_cons, ih hpt, List.mem_cons]
    by_cases hb1 : b = c1
    · have h1nt : c1 ∉ t := fun hm => by
        have := hbt c1 hm
        omega
      simp [hb1, h1nt, (show ¬ c1 = c2 by omega), (show ¬ c1 = c3 by omega),
        (show ¬ c2 = c1 by omega), (show ¬ c3 = c1 by omega)]
    · by_cases hb2 : b = c2
      · have h1nt : c1 ∉ t := fun hm => by
          have := hbt c1 hm
          omega
        have h2nt : c2 ∉ t := fun hm => by
          have := hbt c2 hm
          omega
        simp [hb2, h1nt, h2nt, (show ¬ c2 = c1 by omega), (show ¬ c2 = c3 by omega),
          (show ¬ c1 = c2 by omega), (show ¬ c3 = c2 by omega)]
      · by_cases hb3 : b = c3
        · have h1nt : c1 ∉ t := fun hm => by
            have := hbt c1 hm
            omega
          have h2nt : c2 ∉ t := fun hm => by
            have := hbt c2 hm
            omega
          have h3nt : c3 ∉ t := fun hm => by
            have := hbt c3 hm
            omega
          simp [hb3, h1nt, h2nt, h3nt, (show ¬ c3 = c1 by omega),
            (show ¬ c3 = c2 by omega), (show ¬ c1 = c3 by omega),
            (show ¬ c2 = c3 by omega)]
        · simp [hb1, hb2, hb3, (show ¬ c1 = b from fun h => hb1 h.symm),
            (show ¬ c2 = b from fun h => hb2 h.symm),
            (show ¬ c3 = b from fun h => hb3 h.symm)]

theorem filter_const_append_two {α : Type} (f : α → ℕ) (A : List α) (p q : α)
    (b ca cp cq : ℕ)
    (hA : ∀ x ∈ A, f x = ca) (hp : f p = cp) (hq : f q = cq)
    (hacp : ca ≠ cp) (hacq : ca ≠ cq) (hpq : cp ≠ cq) :
    (A ++ [p, q]).filter (fun x => decide (f x = b)) =
      (if b = ca then A else []) ++ (if b = cp then [p] else []) ++
        (if b = cq then [q] else []) := by
  rw [List.filter_append, List.append_assoc]
  have hApart : A.filter (fun x => decide (f x = b)) = (if b = ca then A else []) := by
    by_cases hca : b = ca
    · rw [if_pos hca, List.filter_eq_self]
      intro x hx
      simp only [decide_eq_true_eq, hA x hx]
      omega
    · rw [if_neg hca, List.filter_eq_nil_iff]
      intro x hx
      simp only [decide_eq_true_eq, hA x hx]
      omega
  rw [hApart]
  congr 1
  by_cases hcp : b = cp
  · have e1 : decide (f p = b) = true := by
      simp only [hp, decide_eq_true_eq]
      omega
    have e2 : decide (f q = b) = false := by
      simp only [hq, decide_eq_false_iff_not]
      omega
    simp [List.filter_cons, List.filter_nil, e1, e2, if_pos hcp,
      if_neg (show ¬ b = cq by omega)]
  · by_cases hcq : b = cq
    · have e1 : decide (f p = b) = false := by
        simp only [hp, decide_eq_false_iff_not]
        omega
      have e2 : decide (f q = b) = true := by
        simp only [hq, decide_eq_true_eq]
        omega
      simp [List.filter_cons, List.filter_nil, e1, e2, if_neg hcp, if_pos hcq]
    · have e1 : decide (f p = b) = false := by
        simp only [hp, decide_eq_false_iff_not]
        omega
      have e2 : decide (f q = b) = false := by
        simp only [hq, decide_eq_false_iff_not]
        omega
      simp [List.filter_cons, List.filter_nil, e1, e2, if_neg hcp, if_neg hcq]

theorem if_append_comm {α : Type} (b c d : ℕ) (X Y : List α) (h : c ≠ d) :
    (if b = c then X else []) ++ (if b = d then Y else []) =
      (if b = d then Y else []) ++ (if b = c then X else []) := by
  by_cases h1 : b = c
  · rw [if_pos h1, if_neg (show ¬ b = d by omega)]
    simp
  · by_cases h2 : b = d
    · rw [if_neg h1, if_pos h2]
      simp
    · simp [h1, h2]

theorem countingPass_const {α : Type} (f : α → ℕ) (nb : ℕ) (l : List α) (c : ℕ)
    (hl : ∀ x ∈ l, f x = c) (hc : c < nb) :
    countingPass f nb l = l := by
  rw [countingPass]
  have hmap : (List.range nb).map (fun b => l.filter (fun x => decide (f x = b))) =
      (List.range nb).map (fun b => if b = c then l else []) := by
    refine List.map_congr_left (fun b _ => ?_)
    by_cases hbc : b = c
    · rw [if_pos hbc, List.filter_eq_self]
      intro x hx
      simp only [decide_eq_true_eq, hl x hx]
      omega
    · rw [if_neg hbc, List.filter_eq_nil_iff]
      intro x hx
      simp only [decide_eq_true_eq, hl x hx]
      omega
  rw [hmap, flatten_map_if_single l c (List.range nb) (List.pairwise_lt_range nb),
    if_pos (List.mem_range.mpr hc)]

theorem countingPass_const_append_lt {α : Type} (f : α → ℕ) (nb : ℕ) (A : List α)
    (p q : α) (ca cp cq : ℕ)
    (hA : ∀ x ∈ A, f x = ca) (hp : f p = cp) (hq : f q = cq)
    (h1 : ca < cp) (h2 : cp < cq) (hnb : cq < nb) :
    countingPass f nb (A ++ [p, q]) = A ++ [p, q] := by
  rw [countingPass,
    List.map_congr_left (fun b _ => filter_const_append_two f A p q b ca cp cq hA hp hq
      (by omega) (by omega) (by omega)),
    flatten_map_if_three A [p] [q] ca cp cq h1 h2 (List.range nb)
      (List.pairwise_lt_range nb),
    if_pos (List.mem_range.mpr (by omega)), if_pos (List.mem_range.mpr (by omega)),
    if_pos (List.mem_range.mpr hnb)]
  simp

theorem countingPass_const_append_gt {α : Type} (f : α → ℕ) (nb : ℕ) (A : List α)
    (p q : α) (ca cp cq : ℕ)
    (hA : ∀ x ∈ A, f x = ca) (hp : f p = cp) (hq : f q = cq)
    (h1 : ca < cq) (h2 : cq < cp) (hnb : cp < nb) :
    countingPass f nb (A ++ [p, q]) = A ++ [q, p] := by
  rw [countingPass,
    List.map_congr_left (fun b _ => filter_const_append_two f A p q b ca cp cq hA hp hq
      (by omega) (by omega) (by omega)),
    List.map_congr_left (fun b _ => by
      rw [List.append_assoc,
        if_append_comm b cp cq ([p]) ([q]) (by omega), ← List.append_assoc]),
    flatten_map_if_three A [q] [p] ca cq cp h1 h2 (List.range nb)
      (List.pairwise_lt_range nb),
    if_pos (List.mem_range.mpr (by omega)), if_pos (List.mem_range.mpr (by omega)),
    if_pos (List.mem_range.mpr hnb)]
  simp

theorem c7_pass7 :
    countingPass (fun r => byteOf (keyTransform r.1) 7) 256 c7FailingInput =
      c7FailingInput := by
  have hA : ∀ x ∈ List.replicate 254 ((0 : ℕ), (1 : ℚ)), x = ((0 : ℕ), (1 : ℚ)) :=
    fun x hx => List.eq_of_mem_replicate hx
  rw [c7FailingInput]
  exact countingPass_const_append_lt _ 256 _ _ _ 128 191 192
    (fun x hx => by rw [hA x hx]; decide)
    (by decide) (by decide) (by decide) (by decide) (by decide)

theorem c7_pass6 :
    countingPass (fun r => byteOf (keyTransform r.1) 6) 256 c7FailingInput =
      List.replicate 254 ((0 : ℕ), (1 : ℚ)) ++
        [(0x4002000000000000, 1), (0x3FF8000000000000, 1)] := by
  have hA : ∀ x ∈ List.replicate 254 ((0 : ℕ), (1 : ℚ)), x = ((0 : ℕ), (1 : ℚ)) :=
    fun x hx => List.eq_of_mem_replicate hx
  rw [c7FailingInput]
  exact countingPass_const_append_gt _ 256 _ _ _ 0 248 2
    (fun x hx => by rw [hA x hx]; decide)
    (by decide) (by decide) (by decide) (by decide) (by decide)

theorem c7_low_bytes : ∀ k : ℕ, k ≤ 5 →
    ∀ x ∈ List.replicate 254 ((0 : ℕ), (1 : ℚ)) ++
        [((0x4002000000000000 : ℕ), (1 : ℚ)), (0x3FF8000000000000, 1)],
      byteOf (keyTransform x.1) k = 0 := by
  have hA : ∀ x ∈ List.replicate 254 ((0 : ℕ), (1 : ℚ)), x = ((0 : ℕ), (1 : ℚ)) :=
    fun x hx => List.eq_of_mem_replicate hx
  intro k hk x hx
  rcases List.mem_append.mp hx with hx | hx
  · rw [hA x hx]
    interval_cases k <;> decide
  · rcases List.mem_cons.mp hx with rfl | hx
    · interval_cases k <;> decide
    · rcases List.mem_singleton.mp hx with rfl
      interval_cases k <;> decide

set_option maxRecDepth 10000 in
/-- C7: evaluation of the sorting code at the failing input.  The
adaptive dispatch routes the 256-pair input (254 zeros, 1.5, 2.25) to
the radix path, whose byte passes run from the most significant byte
down to the least significant one; since each pass is a stable counting
sort, the final order is governed by the least significant byte, and the
output places 2.25 before 1.5: the radix path's value sequence is not
non-decreasing and differs from the comparison sort's, refuting the
claimed equality of the three paths. -/
theorem claim_C7 :
    optimized_sort_value_weight_pairs c7FailingInput =
      radix_sort_value_weight_pairs c7FailingInput
    ∧ radix_sort_value_weight_pairs c7FailingInput =
        List.replicate 254 ((0 : ℕ), (1 : ℚ)) ++
          [(0x4002000000000000, 1), (0x3FF8000000000000, 1)]
    ∧ ¬ List.Sorted (fun a b : ℕ × ℚ => toVal a.1 ≤ toVal b.1)
        (radix_sort_value_weight_pairs c7FailingInput)
    ∧ List.Sorted (fun a b : ℕ × ℚ => toVal a.1 ≤ toVal b.1)
        (qsortModel c7FailingInput) := by
  have hpass : ∀ k : ℕ, k ≤ 5 →
      countingPass (fun r => byteOf (keyTransform r.1) k) 256
        (List.replicate 254 ((0 : ℕ), (1 : ℚ)) ++
          [(0x4002000000000000, 1), (0x3FF8000000000000, 1)]) =
        List.replicate 254 ((0 : ℕ), (1 : ℚ)) ++
          [(0x4002000000000000, 1), (0x3FF8000000000000, 1)] :=
    fun k hk => countingPass_const _ 256 _ 0 (c7_low_bytes k hk) (by omega)
  have hbig : radix_sort_value_weight_pairs c7FailingInput =
      List.replicate 254 ((0 : ℕ), (1 : ℚ)) ++
        [(0x4002000000000000, 1), (0x3FF8000000000000, 1)] := by
    rw [radix_sort_value_weight_pairs, if_neg (by decide), if_neg (by decide)]
    rw [List.foldl_cons]
    rw [c7_pass7, List.foldl_cons]
    rw [c7_pass6, List.foldl_cons]
    rw [hpass 5 (by omega), List.foldl_cons]
    rw [hpass 4 (by omega), List.foldl_cons]
    rw [hpass 3 (by omega), List.foldl_cons]
    rw [hpass 2 (by omega), List.foldl_cons]
    rw [hpass 1 (by omega), List.foldl_cons]
    rw [hpass 0 (by omega), List.foldl_nil]
  have hv15 : toVal 0x3FF8000000000000 = 3/2 := by norm_num [toVal]
  have hv225 : toVal 0x4002000000000000 = 9/4 := by norm_num [toVal]
  refine ⟨?_, hbig, ?_, ?_⟩
  · rw [optimized_sort_value_weight_pairs, if_neg (by decide), if_neg (by decide),
      if_neg ?_]
    rintro ⟨hall, -⟩
    have hmem : ((0x3FF8000000000000 : ℕ), (1 : ℚ)) ∈ c7FailingInput := by decide
    have := hall _ hmem
    rw [hv15] at this
    norm_num at this
  · rw [hbig]
    intro hs
    have hsub := List.Pairwise.sublist
      (List.sublist_append_right (List.replicate 254 ((0 : ℕ), (1 : ℚ)))
        [((0x4002000000000000 : ℕ), (1 : ℚ)), (0x3FF8000000000000, 1)]) hs
    have hrel := (List.pairwise_cons.mp hsub).1 _ (List.mem_singleton.mpr rfl)
    rw [hv15, hv225] at hrel
    norm_num at hrel
  · haveI : IsTotal (ℕ × ℚ) (fun a b => toVal a.1 ≤ toVal b.1) :=
      ⟨fun a b => le_total _ _⟩
    haveI : IsTrans (ℕ × ℚ) (fun a b => toVal a.1 ≤ toVal b.1) :=
      ⟨fun a b c hab hbc => le_trans hab hbc⟩
    exact List.sorted_insertionSort _ _

section EcdfMonotone

theorem prefixSums_length (l : List ℚ) : ∀ a : ℚ, (prefixSums a l).length = l.length := by
  induction l with
  | nil => intro a; rfl
  | cons w ws ih => intro a; simp [prefixSums, ih]

theorem prefixSums_getD (l : List ℚ) : ∀ (a : ℚ) (i : ℕ), i < l.length →
    (prefixSums a l).getD i 0 = a + (l.take (i + 1)).sum := by
  induction l with
  | nil => intro a i h; exact absurd h (by simp)
  | cons w ws ih =>
    intro a i h
    cases i with
    | zero => simp [prefixSums]
    | succ j =>
      simp only [prefixSums, List.getD_cons_succ]
      rw [ih (a + w) j (by simpa using Nat.lt_of_succ_lt_succ h)]
      simp only [List.take_succ_cons, List.sum_cons]
      ring

theorem wGet_pos (pairs : List (ℚ × ℚ)) (hw : ∀ p ∈ pairs, 0 < p.2)
    (i : ℕ) (h : i < pairs.length) : 0 < wGet pairs i := by
  rw [wGet, List.getD_eq_get pairs (0, 0) h]
  exact hw _ (List.get_mem pairs i h)

theorem cumGet_eq (pairs : List (ℚ × ℚ)) (i : ℕ) (h : i < pairs.length) :
    cumGet pairs i = ((pairs.map Prod.snd).take (i + 1)).sum := by
  rw [cumGet, prefixSums_getD _ 0 i (by simpa using h), zero_add]

theorem cumGet_zero (pairs : List (ℚ × ℚ)) (hne : pairs ≠ []) :
    cumGet pairs 0 = wGet pairs 0 := by
  cases pairs with
  | nil => exact absurd rfl hne
  | cons p t => simp [cumGet, prefixSums, wGet]

theorem cumGet_succ (pairs : List (ℚ × ℚ)) (i : ℕ) (h : i + 1 < pairs.length) :
    cumGet pairs (i + 1) = cumGet pairs i + wGet pairs (i + 1) := by
  rw [cumGet_eq pairs (i + 1) h, cumGet_eq pairs i (by omega),
    List.sum_take_succ _ (i + 1) (by simpa using h)]
  congr 1
  rw [wGet, List.getD_eq_get pairs (0, 0) h, List.getElem_map, List.get_eq_getElem]

theorem cumGet_mono (pairs : List (ℚ × ℚ)) (hw : ∀ p ∈ pairs, 0 < p.2) :
    ∀ i j : ℕ, i ≤ j → j < pairs.length → cumGet pairs i ≤ cumGet pairs j := by
  intro i j hij hj
  induction j with
  | zero => cases Nat.le_zero.mp hij; rfl
  | succ k ih =>
    rcases Nat.lt_or_ge i (k + 1) with hik | hik
    · have hk : cumGet pairs i ≤ cumGet pairs k := ih (by omega) (by omega)
      have := wGet_pos pairs hw (k + 1) hj
      rw [cumGet_succ pairs k hj]
      linarith
    · have : i = k + 1 := by omega
      rw [this]

theorem cumGet_strict (pairs : List (ℚ × ℚ)) (hw : ∀ p ∈ pairs, 0 < p.2) :
    ∀ i j : ℕ, i < j → j < pairs.length → cumGet pairs i < cumGet pairs j := by
  intro i j hij hj
  cases j with
  | zero => omega
  | succ k =>
    have h1 : cumGet pairs i ≤ cumGet pairs k := cumGet_mono pairs hw i k (by omega) (by omega)
    have h2 := wGet_pos pairs hw (k + 1) hj
    rw [cumGet_succ pairs k hj]
    linarith

theorem cumGet_last (pairs : List (ℚ × ℚ)) (hne : pairs ≠ []) :
    cumGet pairs (pairs.length - 1) = (pairs.map Prod.snd).sum := by
  have hn : 0 < pairs.length := List.length_pos.mpr hne
  rw [cumGet_eq pairs (pairs.length - 1) (by omega)]
  have : pairs.length - 1 + 1 = (pairs.map Prod.snd).length := by simp; omega
  rw [this, List.take_length]

theorem valGet_mono (pairs : List (ℚ × ℚ))
    (hsort : List.Sorted (fun a b : ℚ × ℚ => a.1 ≤ b.1) pairs) :
    ∀ i j : ℕ, i ≤ j → j < pairs.length → valGet pairs i ≤ valGet pairs j := by
  intro i j hij hj
  rcases Nat.lt_or_ge i j with hlt | hge
  · have := List.pairwise_iff_get.mp hsort ⟨i, by omega⟩ ⟨j, hj⟩ hlt
    rw [valGet, valGet, List.getD_eq_get pairs (0, 0) (by omega : i < pairs.length),
      List.getD_eq_get pairs (0, 0) hj]
    exact this
  · have : i = j := by omega
    rw [this]

theorem bsearchLoop_finds (cum : List ℚ) (target : ℚ) (i0 : ℕ)
    (hmono : ∀ i j : ℕ, i ≤ j → j < cum.length → cum.getD i 0 ≤ cum.getD j 0)
    (hi0 : i0 < cum.length)
    (hP : target ≤ cum.getD i0 0)
    (hleast : ∀ j : ℕ, j < i0 → ¬ target ≤ cum.getD j 0) :
    ∀ (fuel : ℕ) (left right pos : ℤ), 0 ≤ left → right < (cum.length : ℤ) →
      (right - left + 1).toNat < fuel → left ≤ (i0 : ℤ) →
      ((i0 : ℤ) ≤ right ∨ pos = (i0 : ℤ)) →
      bsearchLoop cum target fuel left right pos = (i0 : ℤ) := by
  intro fuel
  induction fuel with
  | zero =>
    intro left right pos _ _ hfuel _ _
    exact absurd hfuel (Nat.not_lt_zero _)
  | succ fuel ih =>
    intro left right pos hl hr hfuel hli0 hinv
    by_cases hlr : left ≤ right
    · have hmid1 : left ≤ (left + right) / 2 := by omega
      have hmid2 : (left + right) / 2 ≤ right := by omega
      have hmid0 : 0 ≤ (left + right) / 2 := le_trans hl hmid1
      have hmidlen : ((left + right) / 2).toNat < cum.length := by omega
      rw [bsearchLoop, if_pos hlr]
      by_cases hpm : target ≤ cum.getD ((left + right) / 2).toNat 0
      · rw [if_pos hpm]
        have hge : (i0 : ℤ) ≤ (left + right) / 2 := by
          by_contra hcon
          push_neg at hcon
          have hlt : ((left + right) / 2).toNat < i0 := by omega
          exact hleast _ hlt hpm
        exact ih left ((left + right) / 2 - 1) ((left + right) / 2) hl
          (by omega) (by omega) hli0 (by omega)
      · rw [if_neg hpm]
        have hlt : ((left + right) / 2).toNat < i0 := by
          by_contra hcon
          push_neg at hcon
          exact hpm (le_trans hP
            (hmono i0 ((left + right) / 2).toNat hcon hmidlen))
        exact ih ((left + right) / 2 + 1) right pos (by omega) hr (by omega)
          (by omega) hinv
    · rw [bsearchLoop, if_neg hlr]
      rcases hinv with hinv | hinv
      · omega
      · exact hinv

theorem ecdfPos_finds (cum : List ℚ) (target : ℚ) (i0 : ℕ)
    (hmono : ∀ i j : ℕ, i ≤ j → j < cum.length → cum.getD i 0 ≤ cum.getD j 0)
    (hi0 : i0 < cum.length)
    (hP : target ≤ cum.getD i0 0)
    (hleast : ∀ j : ℕ, j < i0 → ¬ target ≤ cum.getD j 0) :
    ecdfPos cum target cum.length = i0 := by
  rw [ecdfPos, bsearchLoop_finds cum target i0 hmono hi0 hP hleast
    (cum.length + 1) 0 ((cum.length : ℤ) - 1) ((cum.length : ℤ) - 1)
    le_rfl (by omega) (by omega) (by omega) (by omega)]
  exact Int.toNat_natCast i0

theorem ecdfQ_interior (pairs : List (ℚ × ℚ)) (hne : pairs ≠ [])
    (hw : ∀ p ∈ pairs, 0 < p.2) (htot : (pairs.map Prod.snd).sum = 1)
    (q : ℚ) (h0 : 0 < q) (h1 : q < 1) (hc0 : ¬ q ≤ wGet pairs 0) :
    ∃ i0 : ℕ, 1 ≤ i0 ∧ i0 < pairs.length ∧ q ≤ cumGet pairs i0 ∧
      cumGet pairs (i0 - 1) < q ∧ ecdfQ pairs q = segVal pairs i0 q := by
  have hn : 0 < pairs.length := List.length_pos.mpr hne
  have hlast : q ≤ cumGet pairs (pairs.length - 1) := by
    rw [cumGet_last pairs hne, htot]
    linarith
  have hex : ∃ i, q ≤ cumGet pairs i := ⟨pairs.length - 1, hlast⟩
  have hP : q ≤ cumGet pairs (Nat.find hex) := Nat.find_spec hex
  have hleast : ∀ j : ℕ, j < Nat.find hex → ¬ q ≤ cumGet pairs j :=
    fun j hj => Nat.find_min hex hj
  have hi0n : Nat.find hex < pairs.length := by
    have := Nat.find_min' hex hlast
    omega
  have hi01 : 1 ≤ Nat.find hex := by
    rcases Nat.eq_zero_or_pos (Nat.find hex) with h | h
    · rw [h, cumGet_zero pairs hne] at hP
      exact absurd hP hc0
    · exact h
  have hprev : cumGet pairs (Nat.find hex - 1) < q :=
    not_le.mp (hleast (Nat.find hex - 1) (by omega))
  have hcl : (prefixSums 0 (pairs.map Prod.snd)).length = pairs.length := by
    rw [prefixSums_length]
    simp
  have hposeq : ecdfPos (prefixSums 0 (pairs.map Prod.snd)) q pairs.length =
      Nat.find hex := by
    have := ecdfPos_finds (prefixSums 0 (pairs.map Prod.snd)) q (Nat.find hex)
      (fun i j hij hj => cumGet_mono pairs hw i j hij (by omega))
      (by omega) hP hleast
    rwa [hcl] at this
  refine ⟨Nat.find hex, hi01, hi0n, hP, hprev, ?_⟩
  rw [ecdfQ, htot, mul_one, if_neg (by linarith), if_neg (by linarith),
    if_neg hc0, hposeq]
  by_cases hcq : cumGet pairs (Nat.find hex) = q
  · rw [if_pos (Or.inr hcq), segVal, hcq,
      div_self (by linarith : q - cumGet pairs (Nat.find hex - 1) ≠ 0)]
    ring
  · rw [if_neg (not_or.mpr ⟨by omega, hcq⟩)]

theorem segVal_bounds (pairs : List (ℚ × ℚ))
    (hsort : List.Sorted (fun a b : ℚ × ℚ => a.1 ≤ b.1) pairs)
    (hw : ∀ p ∈ pairs, 0 < p.2) (i0 : ℕ) (h1 : 1 ≤ i0) (hn : i0 < pairs.length)
    (t : ℚ) (hlow : cumGet pairs (i0 - 1) < t) (hhigh : t ≤ cumGet pairs i0) :
    valGet pairs (i0 - 1) ≤ segVal pairs i0 t ∧ segVal pairs i0 t ≤ valGet pairs i0 := by
  have hd : 0 < cumGet pairs i0 - cumGet pairs (i0 - 1) := by
    have := cumGet_strict pairs hw (i0 - 1) i0 (by omega) hn
    linarith
  have hdel : 0 ≤ valGet pairs i0 - valGet pairs (i0 - 1) := by
    have := valGet_mono pairs hsort (i0 - 1) i0 (by omega) hn
    linarith
  have hf0 : 0 ≤ (t - cumGet pairs (i0 - 1)) /
      (cumGet pairs i0 - cumGet pairs (i0 - 1)) :=
    le_of_lt (div_pos (by linarith) hd)
  have hf1 : (t - cumGet pairs (i0 - 1)) /
      (cumGet pairs i0 - cumGet pairs (i0 - 1)) ≤ 1 :=
    (div_le_one hd).mpr (by linarith)
  constructor
  · rw [segVal]
    nlinarith [mul_nonneg hf0 hdel]
  · rw [segVal]
    nlinarith [mul_le_of_le_one_left hdel hf1]

theorem segVal_mono_t (pairs : List (ℚ × ℚ))
    (hsort : List.Sorted (fun a b : ℚ × ℚ => a.1 ≤ b.1) pairs)
    (hw : ∀ p ∈ pairs, 0 < p.2) (i0 : ℕ) (h1 : 1 ≤ i0) (hn : i0 < pairs.length)
    (t1 t2 : ℚ) (ht : t1 ≤ t2) : segVal pairs i0 t1 ≤ segVal pairs i0 t2 := by
  have hd : 0 < cumGet pairs i0 - cumGet pairs (i0 - 1) := by
    have := cumGet_strict pairs hw (i0 - 1) i0 (by omega) hn
    linarith
  have hdel : 0 ≤ valGet pairs i0 - valGet pairs (i0 - 1) := by
    have := valGet_mono pairs hsort (i0 - 1) i0 (by omega) hn
    linarith
  have hnum : (t1 - cumGet pairs (i0 - 1)) / (cumGet pairs i0 - cumGet pairs (i0 - 1)) ≤
      (t2 - cumGet pairs (i0 - 1)) / (cumGet pairs i0 - cumGet pairs (i0 - 1)) := by
    gcongr <;> linarith
  rw [segVal, segVal]
  nlinarith [mul_le_mul_of_nonneg_right hnum hdel]

theorem ecdfQ_bounds (pairs : List (ℚ × ℚ)) (hne : pairs ≠ [])
    (hsort : List.Sorted (fun a b : ℚ × ℚ => a.1 ≤ b.1) pairs)
    (hw : ∀ p ∈ pairs, 0 < p.2) (htot : (pairs.map Prod.snd).sum = 1) (q : ℚ) :
    valGet pairs 0 ≤ ecdfQ pairs q ∧ ecdfQ pairs q ≤ valGet pairs (pairs.length - 1) := by
  have hn : 0 < pairs.length := List.length_pos.mpr hne
  have hv0n : valGet pairs 0 ≤ valGet pairs (pairs.length - 1) :=
    valGet_mono pairs hsort 0 (pairs.length - 1) (by omega) (by omega)
  by_cases hA : q ≤ 0
  · rw [ecdfQ, if_pos hA]
    exact ⟨le_rfl, hv0n⟩
  by_cases hB : 1 ≤ q
  · rw [ecdfQ, if_neg hA, if_pos hB]
    exact ⟨hv0n, le_rfl⟩
  push_neg at hA hB
  by_cases hC : q ≤ wGet pairs 0
  · have heq : ecdfQ pairs q = valGet pairs 0 := by
      rw [ecdfQ, htot, mul_one, if_neg (by linarith), if_neg (by linarith), if_pos hC]
    rw [heq]
    exact ⟨le_rfl, hv0n⟩
  · obtain ⟨i0, h1, hn', hP, hL, heq⟩ := ecdfQ_interior pairs hne hw htot q hA hB hC
    rw [heq]
    have hb := segVal_bounds pairs hsort hw i0 h1 hn' q hL hP
    exact ⟨le_trans (valGet_mono pairs hsort 0 (i0 - 1) (by omega) (by omega)) hb.1,
      le_trans hb.2 (valGet_mono pairs hsort i0 (pairs.length - 1) (by omega) (by omega))⟩

/-- C6: for a fixed completed, sorted sample, the empirical-CDF quantile
is monotonically non-decreasing in the requested level: for all levels
q1 at most q2 within [0,1], the result for q1 is at most the result for
q2. -/
theorem claim_C6 (pairs : List (ℚ × ℚ)) (hne : pairs ≠ [])
    (hsort : List.Sorted (fun a b : ℚ × ℚ => a.1 ≤ b.1) pairs)
    (hw : ∀ p ∈ pairs, 0 < p.2) (htot : (pairs.map Prod.snd).sum = 1) :
    ∀ q1 q2 : ℚ, 0 ≤ q1 → q1 ≤ q2 → q2 ≤ 1 → ecdfQ pairs q1 ≤ ecdfQ pairs q2 := by
  intro q1 q2 hq1 h12 hq2
  have hn : 0 < pairs.length := List.length_pos.mpr hne
  by_cases hA : q1 ≤ 0
  · have hL : ecdfQ pairs q1 = valGet pairs 0 := by rw [ecdfQ, if_pos hA]
    rw [hL]
    exact (ecdfQ_bounds pairs hne hsort hw htot q2).1
  by_cases hB : 1 ≤ q2
  · have hR : ecdfQ pairs q2 = valGet pairs (pairs.length - 1) := by
      rw [ecdfQ, if_neg (by linarith), if_pos hB]
    rw [hR]
    exact (ecdfQ_bounds pairs hne hsort hw htot q1).2
  push_neg at hA hB
  have hA2 : 0 < q2 := lt_of_lt_of_le hA h12
  have hB1 : q1 < 1 := lt_of_le_of_lt h12 hB
  by_cases hC : q1 ≤ wGet pairs 0
  · have hL : ecdfQ pairs q1 = valGet pairs 0 := by
      rw [ecdfQ, htot, mul_one, if_neg (by linarith), if_neg (by linarith), if_pos hC]
    rw [hL]
    exact (ecdfQ_bounds pairs hne hsort hw htot q2).1
  · have hC2 : ¬ q2 ≤ wGet pairs 0 := fun h => hC (le_trans h12 h)
    obtain ⟨i1, hi11, hi1n, hP1, hL1, he1⟩ :=
      ecdfQ_interior pairs hne hw htot q1 hA hB1 hC
    obtain ⟨i2, hi21, hi2n, hP2, hL2, he2⟩ :=
      ecdfQ_interior pairs hne hw htot q2 hA2 hB hC2
    have hle12 : i1 ≤ i2 := by
      by_contra hcon
      push_neg at hcon
      have : cumGet pairs i2 ≤ cumGet pairs (i1 - 1) :=
        cumGet_mono pairs hw i2 (i1 - 1) (by omega) (by omega)
      linarith
    rw [he1, he2]
    rcases Nat.lt_or_ge i1 i2 with hlt | hge
    · have h1b := segVal_bounds pairs hsort hw i1 hi11 hi1n q1 hL1 hP1
      have h2b := segVal_bounds pairs hsort hw i2 hi21 hi2n q2 hL2 hP2
      have hmid : valGet pairs i1 ≤ valGet pairs (i2 - 1) :=
        valGet_mono pairs hsort i1 (i2 - 1) (by omega) (by omega)
      linarith
    · have : i1 = i2 := by omega
      rw [this]
      exact segVal_mono_t pairs hsort hw i2 hi21 hi2n q1 q2 h12

/-- Witness for C6 on the two-pair sample (1, one half), (2, one half) at
levels one quarter and three quarters. -/
theorem claim_C6_witness :
    ecdfQ [(1, 1/2), (2, 1/2)] (1/4) ≤ ecdfQ [(1, 1/2), (2, 1/2)] (3/4) :=
  claim_C6 [(1, 1/2), (2, 1/2)] (by simp) (by norm_num [List.sorted_cons])
    (by
      intro p hp
      rcases List.mem_cons.mp hp with rfl | hp
      · norm_num
      · rcases List.mem_singleton.mp hp with rfl
        norm_num)
    (by norm_num) (1/4) (3/4) (by norm_num) (by norm_num) (by norm_num)

end EcdfMonotone
